import Mathlib

/-!
Verification of the kinematics core of a 6-DOF robotic-arm code base:
`core/transformations.py`, `core/robot_model.py`, `core/ik_solver.py`.
Real numbers stand for Python floats; Python `assert` failures, `IndexError`
and unbound locals are modelled as `Option.none`.
-/

/-- 4×4 homogeneous transform over ℝ, the shape of every matrix the code builds. -/
abbrev Mat4 : Type := Matrix (Fin 4) (Fin 4) ℝ

/-- 3-vector of reals, the shape of positions and error vectors. -/
abbrev Vec3 : Type := Fin 3 → ℝ

/-- One DH parameter row: `{"theta": float|None, "alpha": .., "d": .., "a": ..}`.
`theta = none` marks a variable joint. -/
structure DHRow where
  theta : Option ℝ
  alpha : ℝ
  d : ℝ
  a : ℝ

/-- One offset row: `{tx,ty,tz,rx,ry,rz,is_identity}`; absent keys default to 0
(`off.get("tx", 0.0)` in the source) and `is_identity` defaults to `False`. -/
structure OffsetRow where
  tx : ℝ := 0
  ty : ℝ := 0
  tz : ℝ := 0
  rx : ℝ := 0
  ry : ℝ := 0
  rz : ℝ := 0
  is_identity : Bool := false

/-- `transformations.dh_transform(a, d, alpha, theta)` (lines 27-36). -/
noncomputable def dh_transform (a d alpha theta : ℝ) : Mat4 :=
  let ca := Real.cos alpha
  let sa := Real.sin alpha
  let ct := Real.cos theta
  let st := Real.sin theta
  !![ct, -st * ca, st * sa, a * ct;
     st, ct * ca, -(ct * sa), a * st;
     0, sa, ca, d;
     0, 0, 0, 1]

/-- The 4×4 DH matrix exactly as the specification words it: rotation block
`[[cosθ, -sinθ·cosα, sinθ·sinα], [sinθ, cosθ·cosα, -cosθ·sinα], [0, sinα, cosα]]`
and translation column `(a·cosθ, a·sinθ, d, 1)`.  Written from the spec, to be
compared with `dh_transform` which is written from the source. -/
noncomputable def specStandardDH (a d alpha theta : ℝ) : Mat4 :=
  !![Real.cos theta, -Real.sin theta * Real.cos alpha, Real.sin theta * Real.sin alpha, a * Real.cos theta;
     Real.sin theta, Real.cos theta * Real.cos alpha, -Real.cos theta * Real.sin alpha, a * Real.sin theta;
     0, Real.sin alpha, Real.cos alpha, d;
     0, 0, 0, 1]

/-- `transformations.offset_row_to_matrix` (lines 41-78): identity when the
`is_identity` flag is set, otherwise `T[0:3,0:3] = Rz·Ry·Rx`, `T[0:3,3] = (tx,ty,tz)`. -/
noncomputable def offset_row_to_matrix (off : OffsetRow) : Mat4 :=
  if off.is_identity then 1 else
  let cx := Real.cos off.rx
  let sx := Real.sin off.rx
  let cy := Real.cos off.ry
  let sy := Real.sin off.ry
  let cz := Real.cos off.rz
  let sz := Real.sin off.rz
  let Rx : Matrix (Fin 3) (Fin 3) ℝ := !![1, 0, 0; 0, cx, -sx; 0, sx, cx]
  let Ry : Matrix (Fin 3) (Fin 3) ℝ := !![cy, 0, sy; 0, 1, 0; -sy, 0, cy]
  let Rz : Matrix (Fin 3) (Fin 3) ℝ := !![cz, -sz, 0; sz, cz, 0; 0, 0, 1]
  let R := Rz * Ry * Rx
  !![R 0 0, R 0 1, R 0 2, off.tx;
     R 1 0, R 1 1, R 1 2, off.ty;
     R 2 0, R 2 1, R 2 2, off.tz;
     0, 0, 0, 1]

/-- The offset dict `{"is_identity": True}` that `forward_kinematics` substitutes
when `offsets is None` (line 101). -/
def identOffset : OffsetRow := { is_identity := true }

/-- Default DH row used only as a `getD` fallback in statements (never reached
under the stated bounds). -/
def defRow : DHRow := ⟨none, 0, 0, 0⟩

/-- Loop body of `forward_kinematics` (lines 109-138) over the zipped
`(row, theta, offset)` triples, threading the cumulative pure-DH transform:
`theta_val = row["theta"] if row["theta"] is not None else thetas[i]`,
`T_dh_cumulative = T_dh_cumulative @ A`, `T_actual = T_dh_cumulative @ O`. -/
noncomputable def fk_list (T : Mat4) : List (DHRow × ℝ × OffsetRow) → List Mat4 × List Mat4
  | [] => ([], [])
  | (row, t, off) :: rest =>
      let A := dh_transform row.a row.d row.alpha (row.theta.getD t)
      let Tc := T * A
      let Ta := Tc * offset_row_to_matrix off
      let r := fk_list Tc rest
      (Tc :: r.1, Ta :: r.2)

/-- `transformations.forward_kinematics(dh_rows, thetas, offsets)` (lines 83-140).
The two `assert` statements on lengths are modelled as `none`; `offsets = None`
becomes a list of identity offsets. -/
noncomputable def forward_kinematics (dh_rows : List DHRow) (thetas : List ℝ)
    (offsets : Option (List OffsetRow)) : Option (List Mat4 × List Mat4) :=
  if thetas.length = dh_rows.length then
    let offs := offsets.getD (List.replicate dh_rows.length identOffset)
    if offs.length = dh_rows.length then
      some (fk_list 1 (dh_rows.zip (thetas.zip offs)))
    else none
  else none

/-- The per-joint DH matrix `A_i` of the chain, built from row `i`'s `(a, d, alpha)`
and the effective theta (the row's fixed theta if present, else `thetas[i]`). -/
noncomputable def jointA (rows : List DHRow) (th : List ℝ) (i : ℕ) : Mat4 :=
  let row := rows.getD i defRow
  dh_transform row.a row.d row.alpha (row.theta.getD (th.getD i 0))

/-- The per-joint offset matrix `O_i` of the chain. -/
noncomputable def jointO (offs : List OffsetRow) (i : ℕ) : Mat4 :=
  offset_row_to_matrix (offs.getD i identOffset)

/-- Default zipped `(row, theta, offset)` element, used only as a `getD` fallback. -/
def defE : DHRow × ℝ × OffsetRow := (defRow, 0, identOffset)

/-- The DH matrix `A` built by the loop body for one zipped element. -/
noncomputable def stepA (e : DHRow × ℝ × OffsetRow) : Mat4 :=
  dh_transform e.1.a e.1.d e.1.alpha (e.1.theta.getD e.2.1)

/-- The offset matrix `O` built by the loop body for one zipped element. -/
noncomputable def stepO (e : DHRow × ℝ × OffsetRow) : Mat4 :=
  offset_row_to_matrix e.2.2

/-- `robot_model.RobotModel`: fields stored by `__init__` (lines 10-29). -/
structure RobotModel where
  dh_rows : List DHRow
  offsets : List OffsetRow
  n_joints : ℕ
  thetas : List ℝ
  variable_joints : List ℕ
  T_dh : List Mat4
  T_actual : List Mat4

/-- `[i for i, row in enumerate(dh_rows) if row["theta"] is None]` (lines 23-24). -/
def variableJoints (rows : List DHRow) : List ℕ :=
  (List.range rows.length).filter fun i => ((rows.getD i defRow).theta).isNone

/-- `RobotModel.update_transforms` (lines 46-52): recompute both transform lists
with `forward_kinematics`; its `assert` becomes `none`. -/
noncomputable def update_transforms (m : RobotModel) : Option RobotModel :=
  (forward_kinematics m.dh_rows m.thetas (some m.offsets)).map fun p =>
    { m with T_dh := p.1, T_actual := p.2 }

/-- `RobotModel.__init__(dh_rows, offsets)` (lines 10-29): store the tables,
`n_joints = len(dh_rows)`, zero all angles, record the variable joints, then
run `update_transforms` once. -/
noncomputable def mk_model (rows : List DHRow) (offs : List OffsetRow) : Option RobotModel :=
  update_transforms
    { dh_rows := rows, offsets := offs, n_joints := rows.length,
      thetas := List.replicate rows.length 0,
      variable_joints := variableJoints rows, T_dh := [], T_actual := [] }

/-- `RobotModel.set_theta(joint_idx, value)` (lines 31-37): silently return on an
out-of-range index; write the slot and refresh transforms only when the index is
in `variable_joints`. -/
noncomputable def set_theta (m : RobotModel) (joint_idx : ℤ) (value : ℝ) :
    Option RobotModel :=
  if joint_idx < 0 ∨ (m.n_joints : ℤ) ≤ joint_idx then some m
  else if joint_idx.toNat ∈ m.variable_joints then
    update_transforms { m with thetas := m.thetas.set joint_idx.toNat value }
  else some m

/-- `RobotModel.set_all_thetas(values)` (lines 39-44): write `values[i]` into
every slot `i < len(thetas)` (no dimension check), then refresh transforms. -/
noncomputable def set_all_thetas (m : RobotModel) (values : List ℝ) :
    Option RobotModel :=
  update_transforms { m with thetas := m.thetas.mapIdx fun i t => values.getD i t }

/-- `RobotModel.get_joint_position(joint_idx, use_actual)` (lines 54-59): total,
returns the zero vector on an out-of-range index; otherwise column 3, rows 0-2
of the chosen transform.  No exception, no state change. -/
noncomputable def get_joint_position (m : RobotModel) (joint_idx : ℤ)
    (use_actual : Bool := true) : Vec3 :=
  let transforms := if use_actual then m.T_actual else m.T_dh
  if joint_idx < 0 ∨ (transforms.length : ℤ) ≤ joint_idx then ![0, 0, 0]
  else fun r => (transforms.getD joint_idx.toNat 1) r.castSucc 3

/-- `RobotModel.get_joint_axes(joint_idx, use_actual)` (lines 61-72): total,
returns the three axis columns of `np.eye(4)` on an out-of-range index,
otherwise columns 0-2, rows 0-2 of the chosen transform. -/
noncomputable def get_joint_axes (m : RobotModel) (joint_idx : ℤ)
    (use_actual : Bool := true) : Vec3 × Vec3 × Vec3 :=
  let transforms := if use_actual then m.T_actual else m.T_dh
  if joint_idx < 0 ∨ (transforms.length : ℤ) ≤ joint_idx then
    ((fun r => (1 : Mat4) r.castSucc 0),
     (fun r => (1 : Mat4) r.castSucc 1),
     (fun r => (1 : Mat4) r.castSucc 2))
  else
    let T := transforms.getD joint_idx.toNat 1
    ((fun r => T r.castSucc 0), (fun r => T r.castSucc 1), (fun r => T r.castSucc 2))

/-- Euclidean norm of a 3-vector, `np.linalg.norm` on a length-3 array. -/
noncomputable def errNorm (v : Vec3) : ℝ :=
  Real.sqrt (v 0 ^ 2 + v 1 ^ 2 + v 2 ^ 2)

/-- `UniversalIKSolver.check_reachability(target_pos)` (ik_solver lines 189-211). -/
noncomputable def check_reachability (m : RobotModel) (target : Vec3) : Bool × ℝ :=
  let distance := errNorm target
  let max_reach := (m.dh_rows.map fun row => |row.a| + |row.d|).sum
  (if distance ≤ max_reach * 1.1 then true else false, distance)

/-- A variable joint row with all parameters zero. -/
def varRow : DHRow := ⟨none, 0, 0, 0⟩

/-- A fixed joint row (`theta = 0` present) with all parameters zero. -/
def fixedRow : DHRow := ⟨some 0, 0, 0, 0⟩

/-- The spec's 3-DOF test chain: `(d=0.5, a=0)`, `(a=1.0)`, `(a=0.8)`, all
variable, all offsets identity. -/
noncomputable def simpleRows : List DHRow :=
  [⟨none, 0, 0.5, 0⟩, ⟨none, 0, 0, 1⟩, ⟨none, 0, 0, 0.8⟩]

/-- The 3-DOF chain as a constructed model (transform caches irrelevant to
reachability). -/
noncomputable def simpleModel : RobotModel :=
  ⟨simpleRows, [identOffset, identOffset, identOffset], 3, [0, 0, 0], [0, 1, 2], [], []⟩

/-- A one-joint model whose single joint is fixed. -/
noncomputable def fixedModel : RobotModel :=
  ⟨[fixedRow], [identOffset], 1, [0], [], [1], [1]⟩

/-- A one-joint model whose single joint is variable. -/
noncomputable def oneVarModel : RobotModel :=
  ⟨[varRow], [identOffset], 1, [0], [0], [1], [1]⟩

/-- End-effector position used by the solver: `T_actual[-1][0:3, 3]` after a
`forward_kinematics` call (ik_solver lines 68-75 and 160-165); `none` models
the assertion failure on mismatched lengths or the index error on an empty
chain. -/
noncomputable def ee_position (rows : List DHRow) (offs : List OffsetRow)
    (th : List ℝ) : Option Vec3 :=
  (forward_kinematics rows th (some offs)).bind fun p =>
    p.2.getLast?.map fun T => fun r => T r.castSucc 3

/-- Default numerical-differentiation step `epsilon = 1e-6` of
`_compute_jacobian_numerical`. -/
noncomputable def jacEps : ℝ := 1 / 1000000

/-- `UniversalIKSolver._compute_jacobian_numerical(thetas, epsilon)` (lines
140-187), column form: column `i` is `(p_i - p0) / epsilon` where `p_i` comes
from re-evaluating FK with `thetas[i] += epsilon`. -/
noncomputable def compute_jacobian (rows : List DHRow) (offs : List OffsetRow)
    (n : ℕ) (th : List ℝ) (eps : ℝ) : Option (List Vec3) :=
  (ee_position rows offs th).bind fun p0 =>
    (List.range n).mapM fun i =>
      (ee_position rows offs (th.set i (th.getD i 0 + eps))).map
        fun pp => (fun r => (pp r - p0 r) / eps : Vec3)

/-- `JJT = J @ J.T + lambda_damping * np.eye(3)` (line 107), with `J` given by
its list of columns. -/
noncomputable def damped_normal (J : List Vec3) (lam : ℝ) :
    Matrix (Fin 3) (Fin 3) ℝ :=
  Matrix.of fun r c => (J.map fun col => col r * col c).sum + lam * (1 : Matrix (Fin 3) (Fin 3) ℝ) r c

/-- `np.linalg.solve(JJT, error_vector)` (line 111): `LinAlgError` — modelled
as `none` — exactly when the matrix is singular, else the unique solution. -/
noncomputable def linalg_solve3 (M : Matrix (Fin 3) (Fin 3) ℝ) (b : Vec3) :
    Option Vec3 :=
  if M.det = 0 then none else some (M⁻¹.mulVec b)

/-- Dot product of a Jacobian column with `delta_x`: entry `j` of
`delta_theta = J.T @ delta_x` (line 114). -/
noncomputable def dotV (u v : Vec3) : ℝ := u 0 * v 0 + u 1 * v 1 + u 2 * v 2

/-- The `(success, joint_angles, info)` triple returned by `solve`:
`info = {'iterations', 'final_error', 'error_history'}`. -/
structure IKResult where
  converged : Bool
  angles : List ℝ
  iterations : ℕ
  final_error : ℝ
  error_history : List ℝ

/-- The iteration loop of `UniversalIKSolver.solve` (lines 66-138), by fuel:
`fuel = maxIter - iteration` counts down the remaining passes of
`for iteration in range(max_iterations)`.  Each pass evaluates FK at the
working angles, appends the error norm to the history, returns successfully
when `error_norm < tolerance` with `iterations` the 0-based loop counter,
otherwise builds the numerical Jacobian, forms the damped 3×3 normal matrix
and solves it; a singular solve breaks out of the loop and falls through to
the post-loop return, which reports `iterations = max_iterations`.  `none`
models an exception escaping the call. -/
noncomputable def solve_loop (rows : List DHRow) (offs : List OffsetRow) (n : ℕ)
    (target : Vec3) (tol lam step : ℝ) (maxIter : ℕ) :
    ℕ → List ℝ → List ℝ → ℝ → Option IKResult
  | 0, th, hist, lastErr => some ⟨false, th, maxIter, lastErr, hist⟩
  | fuel + 1, th, hist, lastErr =>
    match ee_position rows offs th with
    | none => none
    | some p =>
      let e : Vec3 := fun r => target r - p r
      let en := errNorm e
      let hist2 := hist ++ [en]
      if en < tol then
        some ⟨true, th, maxIter - (fuel + 1), en, hist2⟩
      else
        match compute_jacobian rows offs n th jacEps with
        | none => none
        | some J =>
          match linalg_solve3 (damped_normal J lam) e with
          | none => some ⟨false, th, maxIter, en, hist2⟩
          | some dx =>
            solve_loop rows offs n target tol lam step maxIter fuel
              (th.mapIdx fun j t => t + step * dotV (J.getD j fun _ => 0) dx)
              hist2 en
termination_by fuel => fuel

/-- `UniversalIKSolver.solve(target_pos, max_iterations, tolerance,
lambda_damping, step_size)` (lines 29-138): start from a copy of the model's
current angles, run the loop.  `max_iterations = 0` leaves `error_norm`
unbound at the post-loop return (a `NameError`), modelled as `none`. -/
noncomputable def solve (m : RobotModel) (target : Vec3) (maxIter : ℕ := 200)
    (tol : ℝ := 0.001) (lam : ℝ := 0.1) (step : ℝ := 0.5) : Option IKResult :=
  if maxIter = 0 then none
  else solve_loop m.dh_rows m.offsets m.n_joints target tol lam step maxIter
    maxIter m.thetas [] 0

/-- State-passing form of `solve`: the method reads `self.model` but performs
no write to it (line 54 copies the angle list; all updates rebind the local
`thetas`), so the model state threads through unchanged. -/
noncomputable def solveS (m : RobotModel) (target : Vec3) (maxIter : ℕ)
    (tol lam step : ℝ) : Option IKResult × RobotModel :=
  (solve m target maxIter tol lam step, m)

/-- C2: the per-joint DH transform built by `dh_transform` is the standard DH
matrix as spelled out in the spec (rotation block mixing cos/sin of theta and
alpha, translation column `(a·cosθ, a·sinθ, d, 1)`), and for a one-joint chain
with `a = 0, d = 0, alpha = 0, theta = 0` both the raw matrix and the chain
transform returned by `forward_kinematics` are the 4×4 identity. -/
theorem dh_transform_standard_and_identity :
    (∀ a d alpha theta : ℝ, dh_transform a d alpha theta = specStandardDH a d alpha theta) ∧
    dh_transform 0 0 0 0 = 1 ∧
    forward_kinematics [⟨none, 0, 0, 0⟩] [0] none = some ([1], [1]) := by
  have hstd : ∀ a d alpha theta : ℝ, dh_transform a d alpha theta = specStandardDH a d alpha theta := by
    intro a d alpha theta
    ext i j
    fin_cases i <;> fin_cases j <;> simp [dh_transform, specStandardDH]
  have hid : dh_transform 0 0 0 0 = 1 := by
    ext i j
    fin_cases i <;> fin_cases j <;>
      simp [dh_transform, Matrix.one_apply, Matrix.vecHead, Matrix.vecTail]
  refine ⟨hstd, hid, ?_⟩
  simp [forward_kinematics, fk_list, identOffset, offset_row_to_matrix, hid]

lemma fk_list_length_dh : ∀ (l : List (DHRow × ℝ × OffsetRow)) (T : Mat4),
    (fk_list T l).1.length = l.length
  | [], _ => rfl
  | (_, _, _) :: rest, T => by
      simpa [fk_list] using fk_list_length_dh rest _

lemma fk_list_length_act : ∀ (l : List (DHRow × ℝ × OffsetRow)) (T : Mat4),
    (fk_list T l).2.length = l.length
  | [], _ => rfl
  | (_, _, _) :: rest, T => by
      simpa [fk_list] using fk_list_length_act rest _

lemma fk_list_head (l : List (DHRow × ℝ × OffsetRow)) (T : Mat4) (h : l ≠ []) :
    (fk_list T l).1.getD 0 1 = T * stepA (l.getD 0 defE) := by
  match l with
  | [] => exact absurd rfl h
  | (row, t, off) :: rest => simp [fk_list, stepA]

lemma fk_list_dh_rec : ∀ (l : List (DHRow × ℝ × OffsetRow)) (T : Mat4) (i : ℕ),
    i + 1 < l.length →
    (fk_list T l).1.getD (i + 1) 1 = (fk_list T l).1.getD i 1 * stepA (l.getD (i + 1) defE)
  | [], _, i, h => by simp at h
  | (row, t, off) :: rest, T, 0, h => by
      match rest with
      | [] => simp at h
      | (row2, t2, off2) :: rest2 => simp [fk_list, stepA]
  | (row, t, off) :: rest, T, i + 1, h => by
      have h2 : i + 1 < rest.length := by simp only [List.length_cons] at h; omega
      simpa [fk_list] using fk_list_dh_rec rest _ i h2

lemma fk_list_act_eq : ∀ (l : List (DHRow × ℝ × OffsetRow)) (T : Mat4) (i : ℕ),
    i < l.length →
    (fk_list T l).2.getD i 1 = (fk_list T l).1.getD i 1 * stepO (l.getD i defE)
  | [], _, i, h => by simp at h
  | (row, t, off) :: rest, T, 0, _ => by simp [fk_list, stepO]
  | (row, t, off) :: rest, T, i + 1, h => by
      have h2 : i < rest.length := by simp only [List.length_cons] at h; omega
      simpa [fk_list] using fk_list_act_eq rest _ i h2

lemma zip_getD {α β : Type} : ∀ (l1 : List α) (l2 : List β) (i : ℕ) (d1 : α) (d2 : β),
    i < l1.length → i < l2.length →
    (l1.zip l2).getD i (d1, d2) = (l1.getD i d1, l2.getD i d2)
  | [], _, i, _, _, h, _ => by simp at h
  | _ :: _, [], i, _, _, _, h => by simp at h
  | a :: l1, b :: l2, 0, d1, d2, _, _ => rfl
  | a :: l1, b :: l2, i + 1, d1, d2, h1, h2 => by
      have g1 : i < l1.length := by simp only [List.length_cons] at h1; omega
      have g2 : i < l2.length := by simp only [List.length_cons] at h2; omega
      simpa [List.zip_cons_cons] using zip_getD l1 l2 i d1 d2 g1 g2

/-- C1: for every chain of N ≥ 1 DH rows with same-length offsets and angle
vector, `forward_kinematics` returns two length-N lists satisfying the
recurrences `dh[0] = A_0`, `dh[i] = dh[i-1]·A_i`, and `actual[i] = dh[i]·O_i`,
where `A_i` is the per-joint DH matrix built from `(a, d, alpha, effective
theta)` and `O_i` is the joint's offset matrix — the 4×4 identity when the
offset is marked identity or when `offsets` is omitted. -/
theorem forward_kinematics_recurrences
    (rows : List DHRow) (th : List ℝ) (offs : List OffsetRow)
    (h1 : th.length = rows.length) (h2 : offs.length = rows.length)
    (h3 : 1 ≤ rows.length) :
    ∃ dhl actl, forward_kinematics rows th (some offs) = some (dhl, actl) ∧
      dhl.length = rows.length ∧ actl.length = rows.length ∧
      dhl.getD 0 1 = jointA rows th 0 ∧
      (∀ i, i + 1 < rows.length → dhl.getD (i + 1) 1 = dhl.getD i 1 * jointA rows th (i + 1)) ∧
      (∀ i, i < rows.length → actl.getD i 1 = dhl.getD i 1 * jointO offs i) ∧
      (∀ off : OffsetRow, off.is_identity = true → offset_row_to_matrix off = 1) ∧
      forward_kinematics rows th none =
        forward_kinematics rows th (some (List.replicate rows.length identOffset)) := by
  set z := rows.zip (th.zip offs) with hz
  have hzlen : z.length = rows.length := by
    simp [hz, List.length_zip, h1, h2]
  have hget : ∀ i, i < rows.length →
      z.getD i defE = (rows.getD i defRow, th.getD i 0, offs.getD i identOffset) := by
    intro i hi
    have g1 : i < th.length := by omega
    have g2 : i < offs.length := by omega
    have g3 : i < (th.zip offs).length := by simp [List.length_zip]; omega
    have step1 := zip_getD rows (th.zip offs) i defRow (0, identOffset) hi g3
    have step2 := zip_getD th offs i 0 identOffset g1 g2
    calc z.getD i defE = (rows.getD i defRow, (th.zip offs).getD i (0, identOffset)) := step1
      _ = (rows.getD i defRow, th.getD i 0, offs.getD i identOffset) := by rw [step2]
  have hfk : forward_kinematics rows th (some offs) = some (fk_list 1 z) := by
    simp [forward_kinematics, h1, h2]
  refine ⟨(fk_list 1 z).1, (fk_list 1 z).2, by simpa using hfk, ?_, ?_, ?_, ?_, ?_, ?_, ?_⟩
  · rw [fk_list_length_dh, hzlen]
  · rw [fk_list_length_act, hzlen]
  · have hne : z ≠ [] := by
      intro hempty
      rw [hempty] at hzlen
      simp at hzlen
      omega
    rw [fk_list_head z 1 hne, hget 0 h3, one_mul]
    rfl
  · intro i hi
    have hi2 : i + 1 < z.length := by omega
    rw [fk_list_dh_rec z 1 i hi2, hget (i + 1) hi]
    rfl
  · intro i hi
    have hi2 : i < z.length := by omega
    rw [fk_list_act_eq z 1 i hi2, hget i hi]
    rfl
  · intro off hoff
    simp [offset_row_to_matrix, hoff]
  · rfl

lemma errNorm_axis (x : ℝ) (hx : 0 ≤ x) : errNorm ![x, 0, 0] = x := by
  unfold errNorm
  rw [show (![x, 0, 0] : Vec3) 0 = x from rfl,
      show (![x, 0, 0] : Vec3) 1 = 0 from rfl,
      show (![x, 0, 0] : Vec3) 2 = 0 from rfl,
      show x ^ 2 + 0 ^ 2 + 0 ^ 2 = x ^ 2 by ring, Real.sqrt_sq hx]

lemma simple_max_reach : (simpleModel.dh_rows.map fun row => |row.a| + |row.d|).sum = 2.3 := by
  simp [simpleModel, simpleRows]
  norm_num [abs_of_nonneg]

/-- C4 counterexample: on the 3-DOF chain with `maxReach = 2.3`, a target at
distance exactly 2.5 m reports `likelyReachable = true` (because
`2.5 ≤ 2.3 · 1.1 = 2.53`), not `false` as claimed. -/
theorem check_reachability_at_2_5_true :
    check_reachability simpleModel ![2.5, 0, 0] = (true, 2.5) := by
  have h := errNorm_axis (2.5 : ℝ) (by norm_num)
  unfold check_reachability
  rw [simple_max_reach, h]
  show (if (2.5 : ℝ) ≤ 2.3 * 1.1 then true else false, (2.5 : ℝ)) = (true, 2.5)
  rw [if_pos (by norm_num)]

/-- C4 (amended): `check_reachability` returns the pair
`(distance ≤ maxReach·1.1, distance)` with `distance = ‖target‖` and
`maxReach = Σ (|a_i| + |d_i|)`; on the 3-DOF chain `maxReach = 2.3`, and a
target at distance 2.0 m reports `likelyReachable = true`, a target at
distance 2.5 m also reports `true` (2.5 ≤ 2.53), while one at 2.6 m reports
`false`. -/
theorem check_reachability_formula :
    (∀ (m : RobotModel) (target : Vec3),
      (check_reachability m target).2 = errNorm target ∧
      ((check_reachability m target).1 = true ↔
        errNorm target ≤ (m.dh_rows.map fun row => |row.a| + |row.d|).sum * 1.1)) ∧
    (simpleModel.dh_rows.map fun row => |row.a| + |row.d|).sum = 2.3 ∧
    check_reachability simpleModel ![2, 0, 0] = (true, 2) ∧
    (check_reachability simpleModel ![2.5, 0, 0]).1 = true ∧
    check_reachability simpleModel ![2.6, 0, 0] = (false, 2.6) := by
  refine ⟨fun m target => ⟨rfl, ?_⟩, simple_max_reach, ?_, ?_, ?_⟩
  · unfold check_reachability
    by_cases h : errNorm target ≤ (m.dh_rows.map fun row => |row.a| + |row.d|).sum * 1.1
    · simp [h]
    · simp [h]
  · have h := errNorm_axis (2 : ℝ) (by norm_num)
    unfold check_reachability
    rw [simple_max_reach, h]
    show (if (2 : ℝ) ≤ 2.3 * 1.1 then true else false, (2 : ℝ)) = (true, 2)
    rw [if_pos (by norm_num)]
  · have h := errNorm_axis (2.5 : ℝ) (by norm_num)
    unfold check_reachability
    rw [simple_max_reach, h]
    show (if (2.5 : ℝ) ≤ 2.3 * 1.1 then true else false, (2.5 : ℝ)).1 = true
    rw [if_pos (by norm_num)]
  · have h := errNorm_axis (2.6 : ℝ) (by norm_num)
    unfold check_reachability
    rw [simple_max_reach, h]
    show (if (2.6 : ℝ) ≤ 2.3 * 1.1 then true else false, (2.6 : ℝ)) = (false, 2.6)
    rw [if_neg (by norm_num)]

/-- C6 counterexample: `set_all_thetas` on a 1-joint chain with the length-2
vector `[1, 2]` does not fail — it silently writes the single overlapping slot
and succeeds with `thetas = [1]`, dropping the extra value. -/
theorem set_all_thetas_truncates :
    (set_all_thetas oneVarModel [1, 2]).map (fun m2 => m2.thetas) = some [1] := by
  have hth : oneVarModel.thetas.mapIdx (fun i t => ([1, 2] : List ℝ).getD i t) = [1] := by
    simp [oneVarModel]
  unfold set_all_thetas update_transforms
  rw [hth]
  simp [forward_kinematics, oneVarModel]

/-- C6 (amended): `forward_kinematics` fails (assertion) whenever the angle
vector or the offsets list disagrees in length with the DH rows; but
`set_all_thetas` performs no dimension check: it writes exactly the
overlapping slots (`thetas[i] = values[i]` for `i < min`), silently dropping
extra values and keeping old angles in missing slots, and then succeeds. -/
theorem dimension_mismatch_behavior :
    (∀ (rows : List DHRow) (th : List ℝ) (o : Option (List OffsetRow)),
      th.length ≠ rows.length → forward_kinematics rows th o = none) ∧
    (∀ (rows : List DHRow) (th : List ℝ) (offs : List OffsetRow),
      offs.length ≠ rows.length → forward_kinematics rows th (some offs) = none) ∧
    (∀ (m : RobotModel) (vs : List ℝ),
      m.thetas.length = m.dh_rows.length → m.offsets.length = m.dh_rows.length →
      ∃ m2, set_all_thetas m vs = some m2 ∧
        m2.thetas = m.thetas.mapIdx (fun i t => vs.getD i t) ∧
        m2.dh_rows = m.dh_rows ∧ m2.offsets = m.offsets) := by
  refine ⟨?_, ?_, ?_⟩
  · intro rows th o h
    simp [forward_kinematics, h]
  · intro rows th offs h
    by_cases hth : th.length = rows.length
    · simp [forward_kinematics, hth, h]
    · simp [forward_kinematics, hth]
  · intro m vs h1 h2
    have hlen : (m.thetas.mapIdx fun i t => vs.getD i t).length = m.dh_rows.length := by
      rw [List.length_mapIdx, h1]
    refine ⟨{ m with
        thetas := m.thetas.mapIdx fun i t => vs.getD i t,
        T_dh := (fk_list 1 (m.dh_rows.zip ((m.thetas.mapIdx fun i t => vs.getD i t).zip m.offsets))).1,
        T_actual := (fk_list 1 (m.dh_rows.zip ((m.thetas.mapIdx fun i t => vs.getD i t).zip m.offsets))).2 },
      ?_, rfl, rfl, rfl⟩
    unfold set_all_thetas update_transforms
    simp [forward_kinematics, hlen, h2, h1]

/-- C9: a `set_theta` call on a joint whose DH row carries a fixed theta is a
complete no-op (the model is returned unchanged, transforms untouched), and no
model operation (`set_theta`, `set_all_thetas`, `update_transforms`) ever
modifies the DH rows or the offsets after construction. -/
theorem set_theta_fixed_noop (m : RobotModel) (i : ℤ) (v c : ℝ)
    (hvar : m.variable_joints = variableJoints m.dh_rows)
    (hc : (m.dh_rows.getD i.toNat defRow).theta = some c) :
    set_theta m i v = some m ∧
    (∀ (j : ℤ) (w : ℝ) (m2 : RobotModel), set_theta m j w = some m2 →
      m2.dh_rows = m.dh_rows ∧ m2.offsets = m.offsets) ∧
    (∀ (vs : List ℝ) (m2 : RobotModel), set_all_thetas m vs = some m2 →
      m2.dh_rows = m.dh_rows ∧ m2.offsets = m.offsets) ∧
    (∀ m2 : RobotModel, update_transforms m = some m2 →
      m2.dh_rows = m.dh_rows ∧ m2.offsets = m.offsets) := by
  have hupd : ∀ (mm : RobotModel) (m2 : RobotModel), update_transforms mm = some m2 →
      m2.dh_rows = mm.dh_rows ∧ m2.offsets = mm.offsets := by
    intro mm m2 h
    unfold update_transforms at h
    rcases Option.map_eq_some'.mp h with ⟨p, hp, hm⟩
    rw [← hm]
    exact ⟨rfl, rfl⟩
  refine ⟨?_, ?_, ?_, hupd m⟩
  · unfold set_theta
    by_cases hrange : i < 0 ∨ (m.n_joints : ℤ) ≤ i
    · rw [if_pos hrange]
    · rw [if_neg hrange]
      have hmem : i.toNat ∉ m.variable_joints := by
        rw [hvar]
        intro hin
        have := (List.mem_filter.mp hin).2
        rw [hc] at this
        simp at this
      rw [if_neg hmem]
  · intro j w m2 h
    unfold set_theta at h
    by_cases hrange : j < 0 ∨ (m.n_joints : ℤ) ≤ j
    · rw [if_pos hrange] at h
      rw [← Option.some_inj.mp h]
      exact ⟨rfl, rfl⟩
    · rw [if_neg hrange] at h
      by_cases hmem : j.toNat ∈ m.variable_joints
      · rw [if_pos hmem] at h
        exact hupd { m with thetas := m.thetas.set j.toNat w } m2 h
      · rw [if_neg hmem] at h
        rw [← Option.some_inj.mp h]
        exact ⟨rfl, rfl⟩
  · intro vs m2 h
    unfold set_all_thetas at h
    exact hupd { m with thetas := m.thetas.mapIdx fun i t => vs.getD i t } m2 h

/-- C9 witness: on the one-joint fixed chain, `set_theta 0 5` is a no-op and
every operation preserves rows and offsets. -/
theorem set_theta_fixed_noop_witness :
    set_theta fixedModel 0 5 = some fixedModel ∧
    (∀ (j : ℤ) (w : ℝ) (m2 : RobotModel), set_theta fixedModel j w = some m2 →
      m2.dh_rows = fixedModel.dh_rows ∧ m2.offsets = fixedModel.offsets) ∧
    (∀ (vs : List ℝ) (m2 : RobotModel), set_all_thetas fixedModel vs = some m2 →
      m2.dh_rows = fixedModel.dh_rows ∧ m2.offsets = fixedModel.offsets) ∧
    (∀ m2 : RobotModel, update_transforms fixedModel = some m2 →
      m2.dh_rows = fixedModel.dh_rows ∧ m2.offsets = fixedModel.offsets) :=
  set_theta_fixed_noop fixedModel 0 5 0 (by rfl) (by rfl)

/-- C10: for an out-of-range joint index (negative or `≥ N`), the per-joint
accessors are total: `get_joint_position` returns the zero vector and
`get_joint_axes` returns the standard basis axes (columns of the identity);
being plain functions, they raise nothing and change no state. -/
theorem out_of_range_accessors (m : RobotModel) (i : ℤ) (b : Bool)
    (ha : m.T_actual.length = m.n_joints) (hd : m.T_dh.length = m.n_joints)
    (hi : i < 0 ∨ (m.n_joints : ℤ) ≤ i) :
    get_joint_position m i b = ![0, 0, 0] ∧
    get_joint_axes m i b = (![1, 0, 0], ![0, 1, 0], ![0, 0, 1]) := by
  have hlen : ((if b then m.T_actual else m.T_dh).length : ℤ) = (m.n_joints : ℤ) := by
    cases b <;> simp [ha, hd]
  have hguard : i < 0 ∨ ((if b then m.T_actual else m.T_dh).length : ℤ) ≤ i := by
    rw [hlen]; exact hi
  constructor
  · unfold get_joint_position
    rw [if_pos hguard]
  · unfold get_joint_axes
    rw [if_pos hguard]
    refine Prod.ext ?_ (Prod.ext ?_ ?_) <;> funext r <;> fin_cases r <;>
      simp [Matrix.one_apply, Fin.castSucc, Fin.castAdd, Fin.castLE]

/-- C10 witness: index 5 on the one-joint fixed chain. -/
theorem out_of_range_accessors_witness :
    get_joint_position fixedModel 5 true = ![0, 0, 0] ∧
    get_joint_axes fixedModel 5 true = (![1, 0, 0], ![0, 1, 0], ![0, 0, 1]) :=
  out_of_range_accessors fixedModel 5 true rfl rfl (Or.inr (by norm_num [fixedModel]))

/-- C5: `solve` never mutates the robot model: in state-passing form the model
comes back with angle vector, DH rows, offsets and both cached transform lists
identical, converged or not; and the result is computed only from the model's
`dh_rows`, `offsets`, `n_joints` and `thetas` (iterating on a private copy),
never from — nor onto — the cached transforms or the variable-joint set. -/
theorem solve_leaves_model_unchanged :
    (∀ (m : RobotModel) (target : Vec3) (maxIter : ℕ) (tol lam step : ℝ),
      (solveS m target maxIter tol lam step).2.thetas = m.thetas ∧
      (solveS m target maxIter tol lam step).2.dh_rows = m.dh_rows ∧
      (solveS m target maxIter tol lam step).2.offsets = m.offsets ∧
      (solveS m target maxIter tol lam step).2.T_dh = m.T_dh ∧
      (solveS m target maxIter tol lam step).2.T_actual = m.T_actual ∧
      (solveS m target maxIter tol lam step).1 = solve m target maxIter tol lam step) ∧
    (∀ (m : RobotModel) (target : Vec3) (maxIter : ℕ) (tol lam step : ℝ)
       (X Y : List Mat4) (vj : List ℕ),
      solve { m with variable_joints := vj, T_dh := X, T_actual := Y }
          target maxIter tol lam step =
        solve m target maxIter tol lam step) :=
  ⟨fun _ _ _ _ _ _ => ⟨rfl, rfl, rfl, rfl, rfl, rfl⟩,
   fun _ _ _ _ _ _ _ _ _ => rfl⟩

lemma dh_transform_zero : dh_transform 0 0 0 0 = 1 := by
  ext i j
  fin_cases i <;> fin_cases j <;>
    simp [dh_transform, Matrix.one_apply, Matrix.vecHead, Matrix.vecTail]

lemma offset_identOffset : offset_row_to_matrix identOffset = 1 := by
  simp [offset_row_to_matrix, identOffset]

lemma set_getD_ne {α : Type} : ∀ (l : List α) (i j : ℕ) (v d : α), i ≠ j →
    (l.set i v).getD j d = l.getD j d
  | [], _, _, _, _, _ => rfl
  | _ :: _, 0, 0, _, _, h => absurd rfl h
  | _ :: _, 0, _ + 1, _, _, _ => rfl
  | _ :: _, _ + 1, 0, _, _, _ => rfl
  | _ :: l, i + 1, j + 1, v, d, h =>
      set_getD_ne l i j v d fun q => h (by rw [q])

lemma mapM_option_eq {α β : Type} : ∀ (L : List α) (f : α → Option β) (g : α → β),
    (∀ x ∈ L, f x = some (g x)) → L.mapM f = some (L.map g)
  | [], _, _, _ => rfl
  | a :: L, f, g, h => by
      rw [List.mapM_cons, h a (List.mem_cons_self a L),
        mapM_option_eq L f g fun x hx => h x (List.mem_cons_of_mem a hx)]
      rfl

lemma map_range_getD {β : Type} (n i : ℕ) (g : ℕ → β) (d : β) (h : i < n) :
    ((List.range n).map g).getD i d = g i := by
  have h1 : i < ((List.range n).map g).length := by simpa using h
  rw [List.getD_eq_getElem _ _ h1, List.getElem_map, List.getElem_range]

lemma ee_position_some_facts (rows : List DHRow) (offs : List OffsetRow)
    (th : List ℝ) (p0 : Vec3) (h : ee_position rows offs th = some p0) :
    th.length = rows.length ∧ offs.length = rows.length ∧ rows ≠ [] := by
  unfold ee_position at h
  by_cases h1 : th.length = rows.length
  · by_cases h2 : offs.length = rows.length
    · refine ⟨h1, h2, ?_⟩
      intro hnil
      subst hnil
      simp [forward_kinematics, fk_list, h1, h2] at h
    · simp [forward_kinematics, h1, h2] at h
  · simp [forward_kinematics, h1] at h

lemma ee_position_total (rows : List DHRow) (offs : List OffsetRow) (th : List ℝ)
    (h1 : th.length = rows.length) (h2 : offs.length = rows.length)
    (h3 : rows ≠ []) : ∃ p, ee_position rows offs th = some p := by
  have hlen : (fk_list 1 (rows.zip (th.zip offs))).2.length = rows.length := by
    rw [fk_list_length_act]; simp [List.length_zip, h1, h2]
  have hne : (fk_list 1 (rows.zip (th.zip offs))).2 ≠ [] := by
    intro hq
    rw [hq] at hlen
    exact h3 (List.length_eq_zero.mp hlen.symm)
  rcases Option.isSome_iff_exists.mp (List.getLast?_isSome.mpr hne) with ⟨T, hT⟩
  refine ⟨fun r => T r.castSucc 3, ?_⟩
  unfold ee_position
  simp [forward_kinematics, h1, h2, hT]

lemma fk_list_eff_congr : ∀ (rows : List DHRow) (th th2 : List ℝ)
    (offs : List OffsetRow) (T : Mat4), th.length = th2.length →
    (∀ j, (rows.getD j defRow).theta.getD (th.getD j 0) =
          (rows.getD j defRow).theta.getD (th2.getD j 0)) →
    fk_list T (rows.zip (th.zip offs)) = fk_list T (rows.zip (th2.zip offs))
  | [], _, _, _, _, _, _ => rfl
  | r :: rs, th, th2, offs, T, hlen, heff => by
      match th, th2, hlen with
      | [], [], _ => rfl
      | t :: ts, t2 :: ts2, hlen =>
        match offs with
        | [] => rfl
        | o :: os =>
          have h0 : r.theta.getD t = r.theta.getD t2 := heff 0
          have hts : ts.length = ts2.length := by
            simpa using hlen
          have htl : ∀ j, (rs.getD j defRow).theta.getD (ts.getD j 0) =
              (rs.getD j defRow).theta.getD (ts2.getD j 0) := fun j => heff (j + 1)
          have hz1 : (r :: rs).zip (((t :: ts)).zip (o :: os)) =
              (r, t, o) :: rs.zip (ts.zip os) := rfl
          have hz2 : (r :: rs).zip (((t2 :: ts2)).zip (o :: os)) =
              (r, t2, o) :: rs.zip (ts2.zip os) := rfl
          rw [hz1, hz2]
          simp only [fk_list]
          rw [h0, fk_list_eff_congr rs ts ts2 os _ hts htl]

lemma ee_position_eff_congr (rows : List DHRow) (offs : List OffsetRow)
    (th th2 : List ℝ) (hlen : th.length = th2.length)
    (heff : ∀ j, (rows.getD j defRow).theta.getD (th.getD j 0) =
                 (rows.getD j defRow).theta.getD (th2.getD j 0)) :
    ee_position rows offs th = ee_position rows offs th2 := by
  unfold ee_position forward_kinematics
  by_cases h1 : th.length = rows.length
  · have h1b : th2.length = rows.length := by rw [← hlen]; exact h1
    by_cases h2 : offs.length = rows.length
    · simp [h1, h1b, h2, fk_list_eff_congr rows th th2 offs 1 hlen heff]
    · simp [h1, h1b, h2]
  · have h1b : ¬th2.length = rows.length := by rw [← hlen]; exact h1
    simp [h1, h1b]

lemma ee_perturb_fixed (rows : List DHRow) (offs : List OffsetRow) (th : List ℝ)
    (i : ℕ) (eps c : ℝ) (hc : (rows.getD i defRow).theta = some c) :
    ee_position rows offs (th.set i (th.getD i 0 + eps)) =
      ee_position rows offs th := by
  apply ee_position_eff_congr
  · exact List.length_set th i _
  · intro j
    by_cases hj : j = i
    · subst hj
      rw [hc]
      rfl
    · rw [set_getD_ne th i j _ 0 fun q => hj q.symm]


lemma fk_singleton (row : DHRow) (t : ℝ) (off : OffsetRow) :
    forward_kinematics [row] [t] (some [off]) =
      some ([1 * dh_transform row.a row.d row.alpha (row.theta.getD t)],
            [1 * dh_transform row.a row.d row.alpha (row.theta.getD t) *
              offset_row_to_matrix off]) := rfl

lemma ee_position_fixed_chain (t : ℝ) :
    ee_position [fixedRow] [identOffset] [t] = some fun _ => 0 := by
  have hA : dh_transform fixedRow.a fixedRow.d fixedRow.alpha
      (fixedRow.theta.getD t) = 1 := by
    simpa [fixedRow] using dh_transform_zero
  unfold ee_position
  rw [fk_singleton, hA, offset_identOffset]
  simp only [one_mul, mul_one, Option.some_bind]
  show Option.map _ (some (1 : Mat4)) = _
  refine congrArg some (funext fun r => ?_)
  refine Matrix.one_apply_ne (Fin.ne_of_val_ne ?_)
  have hlt := r.isLt
  have h3 : (3 : Fin 4).val = 3 := rfl
  have hc : (r.castSucc : Fin 4).val = r.val := rfl
  rw [hc, h3]
  omega

/-- C7: for every chain and angle vector at which the evaluator succeeds, the
numerically built Jacobian is the list of N columns with column \`i\` equal to
\`(p_i - p0) / epsilon\`, where \`p0\` is the end-effector position at the given
angles and \`p_i\` the position after adding epsilon to angle \`i\` alone; and
every column belonging to a joint whose DH row carries a fixed theta is
exactly the zero column, since the evaluator ignores the passed angle there. -/
theorem jacobian_columns (rows : List DHRow) (offs : List OffsetRow)
    (th : List ℝ) (n : ℕ) (eps : ℝ) (p0 : Vec3)
    (h : ee_position rows offs th = some p0) :
    ∃ cols, compute_jacobian rows offs n th eps = some cols ∧ cols.length = n ∧
      (∀ i, i < n → ∀ pi, ee_position rows offs (th.set i (th.getD i 0 + eps)) = some pi →
        cols.getD i (fun _ => 0) = fun r => (pi r - p0 r) / eps) ∧
      (∀ i c, i < n → (rows.getD i defRow).theta = some c →
        cols.getD i (fun _ => 0) = fun _ => 0) := by
  obtain ⟨h1, h2, h3⟩ := ee_position_some_facts rows offs th p0 h
  have hpert : ∀ i : ℕ, ∃ pi,
      ee_position rows offs (th.set i (th.getD i 0 + eps)) = some pi := fun i =>
    ee_position_total rows offs _ (by rw [List.length_set]; exact h1) h2 h3
  choose pv hpv using hpert
  have hf : ∀ i ∈ List.range n,
      ((ee_position rows offs (th.set i (th.getD i 0 + eps))).map
        fun pp => (fun r => (pp r - p0 r) / eps : Vec3)) =
      some fun r => (pv i r - p0 r) / eps := by
    intro i _
    rw [hpv i]
    rfl
  have hmapM := mapM_option_eq (List.range n) _
    (fun i => (fun r => (pv i r - p0 r) / eps : Vec3)) hf
  refine ⟨(List.range n).map fun i => (fun r => (pv i r - p0 r) / eps : Vec3),
    ?_, by simp, ?_, ?_⟩
  · unfold compute_jacobian
    rw [h, Option.some_bind]
    exact hmapM
  · intro i hi pi hpi
    rw [map_range_getD n i _ _ hi]
    have hpp : pi = pv i := by
      rw [hpv i] at hpi
      exact (Option.some_inj.mp hpi).symm
    rw [hpp]
  · intro i c hi hc
    have hsame : pv i = p0 := by
      have hcong := ee_perturb_fixed rows offs th i eps c hc
      rw [hpv i, h] at hcong
      exact Option.some_inj.mp hcong
    rw [map_range_getD n i _ _ hi]
    funext r
    rw [hsame]
    simp

/-- C7 witness: the one-joint fixed chain at \`thetas = [0]\`, \`n = 1\`,
\`eps = jacEps\`. -/
theorem jacobian_columns_witness :
    ∃ cols, compute_jacobian [fixedRow] [identOffset] 1 [0] jacEps = some cols ∧
      cols.length = 1 ∧
      (∀ i, i < 1 → ∀ pi,
        ee_position [fixedRow] [identOffset]
            (([0] : List ℝ).set i (([0] : List ℝ).getD i 0 + jacEps)) = some pi →
        cols.getD i (fun _ => 0) = fun r => (pi r - (fun _ => (0 : ℝ)) r) / jacEps) ∧
      (∀ i c, i < 1 → (([fixedRow].getD i defRow)).theta = some c →
        cols.getD i (fun _ => 0) = fun _ => 0) :=
  jacobian_columns [fixedRow] [identOffset] [0] 1 jacEps (fun _ => 0)
    (ee_position_fixed_chain 0)

/-- C8: when the chain's current angles already place the end-effector within
tolerance of the target, `solve` returns immediately with `converged = true`,
the working angles equal to the model's current angles, an iteration count of
0, and the single-entry error history — no update step is applied. -/
theorem solve_converged_immediately (m : RobotModel) (target : Vec3)
    (maxIter : ℕ) (tol lam step : ℝ) (p : Vec3) (en : ℝ)
    (hm : maxIter ≠ 0)
    (hp : ee_position m.dh_rows m.offsets m.thetas = some p)
    (hen : en = errNorm fun r => target r - p r)
    (herr : en < tol) :
    solve m target maxIter tol lam step = some ⟨true, m.thetas, 0, en, [en]⟩ := by
  unfold solve
  rw [if_neg hm]
  obtain ⟨k, rfl⟩ : ∃ k, maxIter = k + 1 :=
    ⟨maxIter - 1, (Nat.succ_pred_eq_of_pos (Nat.pos_of_ne_zero hm)).symm⟩
  simp only [solve_loop]
  rw [hp]
  simp only [← hen]
  rw [if_pos herr]
  simp

/-- C8 witness: re-solving the one-joint fixed chain for the target it already
reaches (the origin) converges with 0 iterations. -/
theorem solve_converged_immediately_witness :
    solve fixedModel ![0, 0, 0] 200 (1 / 1000) (1 / 10) (1 / 2) =
      some ⟨true, fixedModel.thetas, 0, 0, [0]⟩ :=
  solve_converged_immediately fixedModel ![0, 0, 0] 200 (1 / 1000) (1 / 10)
    (1 / 2) (fun _ => 0) 0 (by norm_num) (ee_position_fixed_chain 0)
    (by
      have hz : (fun r => (![0, 0, 0] : Vec3) r - (fun _ => (0 : ℝ)) r) =
          fun _ => (0 : ℝ) := by
        funext r
        fin_cases r <;> simp
      rw [hz]
      simp [errNorm])
    (by norm_num)

lemma solve_loop_zero (rows : List DHRow) (offs : List OffsetRow) (n : ℕ)
    (target : Vec3) (tol lam step : ℝ) (maxIter : ℕ) (th hist : List ℝ)
    (le : ℝ) :
    solve_loop rows offs n target tol lam step maxIter 0 th hist le =
      some ⟨false, th, maxIter, le, hist⟩ := by
  simp only [solve_loop]

lemma solve_loop_succ (rows : List DHRow) (offs : List OffsetRow) (n : ℕ)
    (target : Vec3) (tol lam step : ℝ) (maxIter fuel : ℕ) (th hist : List ℝ)
    (le : ℝ) :
    solve_loop rows offs n target tol lam step maxIter (fuel + 1) th hist le =
      match ee_position rows offs th with
      | none => none
      | some p =>
        if errNorm (fun r => target r - p r) < tol then
          some ⟨true, th, maxIter - (fuel + 1), errNorm (fun r => target r - p r),
            hist ++ [errNorm (fun r => target r - p r)]⟩
        else
          match compute_jacobian rows offs n th jacEps with
          | none => none
          | some J =>
            match linalg_solve3 (damped_normal J lam) (fun r => target r - p r) with
            | none => some ⟨false, th, maxIter, errNorm (fun r => target r - p r),
                hist ++ [errNorm (fun r => target r - p r)]⟩
            | some dx =>
              solve_loop rows offs n target tol lam step maxIter fuel
                (th.mapIdx fun j t => t + step * dotV (J.getD j fun _ => 0) dx)
                (hist ++ [errNorm (fun r => target r - p r)])
                (errNorm (fun r => target r - p r)) := by
  simp only [solve_loop]

lemma solve_loop_nonconv (rows : List DHRow) (offs : List OffsetRow) (n : ℕ)
    (target : Vec3) (tol lam step : ℝ) (maxIter : ℕ) :
    ∀ (fuel : ℕ) (th hist : List ℝ) (le : ℝ) (r : IKResult),
    solve_loop rows offs n target tol lam step maxIter fuel th hist le = some r →
    r.converged = false →
    (hist = [] ∨ le = hist.getLastD 0) →
    (hist ≠ [] ∨ fuel ≠ 0) →
    r.iterations = maxIter ∧ r.error_history ≠ [] ∧
    r.final_error = r.error_history.getLastD 0 ∧
    hist.length ≤ r.error_history.length ∧
    r.error_history.length ≤ hist.length + fuel ∧
    (r.error_history.length = hist.length + fuel ∨
      ∃ k, k < fuel ∧ r.error_history.length = hist.length + k + 1 ∧
        ∃ th2 hist2 le2 p J,
          solve_loop rows offs n target tol lam step maxIter (fuel - k)
            th2 hist2 le2 = some r ∧
          hist2.length = hist.length + k ∧
          ee_position rows offs th2 = some p ∧
          ¬ errNorm (fun i => target i - p i) < tol ∧
          compute_jacobian rows offs n th2 jacEps = some J ∧
          linalg_solve3 (damped_normal J lam) (fun i => target i - p i) = none) := by
  intro fuel
  induction fuel with
  | zero =>
    intro th hist le r hr hc hinv hne
    rw [solve_loop_zero] at hr
    obtain rfl := Option.some_inj.mp hr
    rcases hne with h | h
    · rcases hinv with h2 | h2
      · exact absurd h2 h
      · exact ⟨rfl, h, h2, by simp, by simp, Or.inl (by simp)⟩
    · exact absurd rfl h
  | succ f ih =>
    intro th hist le r hr hc hinv hne
    have hr0 := hr
    rw [solve_loop_succ] at hr
    split at hr
    · exact absurd hr (by simp)
    rename_i p hee
    split at hr
    · obtain rfl := Option.some_inj.mp hr
      simp at hc
    rename_i hnlt
    split at hr
    · exact absurd hr (by simp)
    rename_i J hJ
    split at hr
    · rename_i hdx
      obtain rfl := Option.some_inj.mp hr
      refine ⟨rfl, by simp, (List.getLastD_concat _ _ _).symm, by simp, by simp,
        Or.inr ⟨0, by omega, by simp, th, hist, le, p, J, ?_, by omega, hee,
          hnlt, hJ, hdx⟩⟩
      simpa using hr0
    rename_i dx hdx
    have hrec := ih _ _ _ r hr hc
      (Or.inr (List.getLastD_concat _ _ _).symm) (Or.inl (by simp))
    obtain ⟨hA, hB, hC, hD, hE, hF⟩ := hrec
    refine ⟨hA, hB, hC, ?_, ?_, ?_⟩
    · simp only [List.length_append, List.length_cons, List.length_nil] at hD
      omega
    · simp only [List.length_append, List.length_cons, List.length_nil] at hE
      omega
    · rcases hF with hF | ⟨k, hk, hlen, th2, hist2, le2, p2, J2, hloop, hh2,
        hev1, hev2, hev3, hev4⟩
      · left
        simp only [List.length_append, List.length_cons, List.length_nil] at hF
        omega
      · right
        refine ⟨k + 1, by omega, ?_, th2, hist2, le2, p2, J2, ?_, ?_, hev1,
          hev2, hev3, hev4⟩
        · simp only [List.length_append, List.length_cons, List.length_nil] at hlen
          omega
        · have hsub : f + 1 - (k + 1) = f - k := by omega
          rw [hsub]
          exact hloop
        · simp only [List.length_append, List.length_cons, List.length_nil] at hh2
          omega

/-- C3 (amended): every `solve` call that ends without meeting the tolerance —
budget exhausted or loop aborted by a singular linear solve — returns
`converged = false` with the current working angles, and its diagnostics
report `iterations = maxIterations` in both cases (the abort index is not
reported), `final_error` equal to the last computed error norm (the last entry
of `error_history`), and an `error_history` holding one entry per iteration
that began: either exactly `maxIterations` entries (the budget was exhausted),
or the run aborted — there is an abort index `k < maxIterations`, a working
state reached at iteration `k` with exactly `k` entries recorded whose damped
3×3 solve is singular after a failed tolerance check, and `error_history` has
exactly `k + 1` entries. -/
theorem solve_nonconverged_diagnostics (m : RobotModel) (target : Vec3)
    (maxIter : ℕ) (tol lam step : ℝ) (r : IKResult)
    (h : solve m target maxIter tol lam step = some r)
    (hc : r.converged = false) :
    r.iterations = maxIter ∧ r.error_history ≠ [] ∧
    r.final_error = r.error_history.getLastD 0 ∧
    1 ≤ r.error_history.length ∧ r.error_history.length ≤ maxIter ∧
    (r.error_history.length = maxIter ∨
      ∃ k, k < maxIter ∧ r.error_history.length = k + 1 ∧
        ∃ th2 hist2 le2 p J,
          solve_loop m.dh_rows m.offsets m.n_joints target tol lam step maxIter
            (maxIter - k) th2 hist2 le2 = some r ∧
          hist2.length = k ∧
          ee_position m.dh_rows m.offsets th2 = some p ∧
          ¬ errNorm (fun i => target i - p i) < tol ∧
          compute_jacobian m.dh_rows m.offsets m.n_joints th2 jacEps = some J ∧
          linalg_solve3 (damped_normal J lam) (fun i => target i - p i) = none) := by
  unfold solve at h
  by_cases hm : maxIter = 0
  · rw [if_pos hm] at h
    exact absurd h (by simp)
  · rw [if_neg hm] at h
    obtain ⟨h1, h2, h3, _, h5, h6⟩ := solve_loop_nonconv m.dh_rows m.offsets
      m.n_joints target tol lam step maxIter maxIter m.thetas [] 0 r h hc
      (Or.inl rfl) (Or.inr hm)
    have hpos := List.length_pos.mpr h2
    refine ⟨h1, h2, h3, by omega, by simpa using h5, ?_⟩
    rcases h6 with h6 | ⟨k, hk, hlen, th2, hist2, le2, p, J, hloop, hh2, hev1,
      hev2, hev3, hev4⟩
    · left
      simpa using h6
    · right
      exact ⟨k, hk, by simpa using hlen, th2, hist2, le2, p, J, hloop,
        by simpa using hh2, hev1, hev2, hev3, hev4⟩

lemma jacobian_fixed_chain :
    compute_jacobian [fixedRow] [identOffset] 1 [0] jacEps =
      some [(fun _ => 0 : Vec3)] := by
  obtain ⟨cols, hcols, hlen, _, hfix⟩ :=
    jacobian_columns [fixedRow] [identOffset] [0] 1 jacEps (fun _ => 0)
      (ee_position_fixed_chain 0)
  have hz : cols.getD 0 (fun _ => 0) = (fun _ => 0 : Vec3) :=
    hfix 0 0 (by omega) rfl
  match cols, hlen with
  | [c], _ =>
    rw [hcols]
    exact congrArg some (congrArg (fun x => [x]) hz)

lemma damped_normal_zero_col : damped_normal [(fun _ => 0 : Vec3)] 0 = 0 := by
  ext r c
  simp [damped_normal]

lemma err_two : errNorm (fun r => (![2, 0, 0] : Vec3) r - (fun _ => (0 : ℝ)) r) = 2 := by
  have hz : (fun r => (![2, 0, 0] : Vec3) r - (fun _ => (0 : ℝ)) r) =
      (![2, 0, 0] : Vec3) := by
    funext r
    fin_cases r <;> simp
  rw [hz]
  exact errNorm_axis 2 (by norm_num)

/-- C3 counterexample: a `solve` run that aborts at iteration 0 (fixed joint,
`lambda_damping = 0`, so the damped normal matrix is singular) with
`max_iterations = 2` reports `iterations = 2` — `maxIterations`, not the abort
index 0 — and its `error_history` has 1 entry (`abortIndex + 1`), not
`maxIterations` or the abort index. -/
theorem solve_abort_reports_max_iterations :
    solve fixedModel ![2, 0, 0] 2 (1 / 1000) 0 (1 / 2) =
      some ⟨false, [0], 2, 2, [2]⟩ := by
  have hee : ee_position fixedModel.dh_rows fixedModel.offsets
      fixedModel.thetas = some fun _ => 0 := ee_position_fixed_chain 0
  have hJ : compute_jacobian fixedModel.dh_rows fixedModel.offsets
      fixedModel.n_joints fixedModel.thetas jacEps =
      some [(fun _ => 0 : Vec3)] := jacobian_fixed_chain
  have hnlt : ¬ errNorm (fun r => (![2, 0, 0] : Vec3) r - (fun _ => (0 : ℝ)) r) <
      1 / 1000 := by
    rw [err_two]
    norm_num
  have hdx : linalg_solve3 (damped_normal [(fun _ => 0 : Vec3)] 0)
      (fun r => (![2, 0, 0] : Vec3) r - (fun _ => (0 : ℝ)) r) = none := by
    unfold linalg_solve3
    rw [damped_normal_zero_col, if_pos (Matrix.det_zero ⟨0⟩)]
  unfold solve
  rw [if_neg (by norm_num)]
  show solve_loop fixedModel.dh_rows fixedModel.offsets fixedModel.n_joints
    ![2, 0, 0] (1 / 1000) 0 (1 / 2) 2 (1 + 1) fixedModel.thetas [] 0 = _
  rw [solve_loop_succ]
  simp only [hee]
  rw [if_neg hnlt]
  simp only [hJ]
  rw [hdx, err_two]
  rfl

/-- C3 witness: the aborted run above is a non-converged `solve` result, so
the amended diagnostics contract — including the exact
exhausted-or-aborted history count — holds of it. -/
theorem solve_nonconverged_diagnostics_witness :
    (⟨false, [0], 2, 2, [2]⟩ : IKResult).iterations = 2 ∧
    (⟨false, [0], 2, 2, [2]⟩ : IKResult).error_history ≠ [] ∧
    (⟨false, [0], 2, 2, [2]⟩ : IKResult).final_error =
      (⟨false, [0], 2, 2, [2]⟩ : IKResult).error_history.getLastD 0 ∧
    1 ≤ (⟨false, [0], 2, 2, [2]⟩ : IKResult).error_history.length ∧
    (⟨false, [0], 2, 2, [2]⟩ : IKResult).error_history.length ≤ 2 ∧
    ((⟨false, [0], 2, 2, [2]⟩ : IKResult).error_history.length = 2 ∨
      ∃ k, k < 2 ∧
        (⟨false, [0], 2, 2, [2]⟩ : IKResult).error_history.length = k + 1 ∧
        ∃ th2 hist2 le2 p J,
          solve_loop fixedModel.dh_rows fixedModel.offsets fixedModel.n_joints
            ![2, 0, 0] (1 / 1000) 0 (1 / 2) 2 (2 - k) th2 hist2 le2 =
            some ⟨false, [0], 2, 2, [2]⟩ ∧
          hist2.length = k ∧
          ee_position fixedModel.dh_rows fixedModel.offsets th2 = some p ∧
          ¬ errNorm (fun i => (![2, 0, 0] : Vec3) i - p i) < 1 / 1000 ∧
          compute_jacobian fixedModel.dh_rows fixedModel.offsets
            fixedModel.n_joints th2 jacEps = some J ∧
          linalg_solve3 (damped_normal J 0)
            (fun i => (![2, 0, 0] : Vec3) i - p i) = none) := by
  refine solve_nonconverged_diagnostics fixedModel ![2, 0, 0] 2 (1 / 1000) 0
    (1 / 2) ⟨false, [0], 2, 2, [2]⟩ ?_ rfl
  have hee : ee_position fixedModel.dh_rows fixedModel.offsets
      fixedModel.thetas = some fun _ => 0 := ee_position_fixed_chain 0
  have hJ : compute_jacobian fixedModel.dh_rows fixedModel.offsets
      fixedModel.n_joints fixedModel.thetas jacEps =
      some [(fun _ => 0 : Vec3)] := jacobian_fixed_chain
  have hnlt : ¬ errNorm (fun r => (![2, 0, 0] : Vec3) r - (fun _ => (0 : ℝ)) r) <
      1 / 1000 := by
    rw [err_two]
    norm_num
  have hdx : linalg_solve3 (damped_normal [(fun _ => 0 : Vec3)] 0)
      (fun r => (![2, 0, 0] : Vec3) r - (fun _ => (0 : ℝ)) r) = none := by
    unfold linalg_solve3
    rw [damped_normal_zero_col, if_pos (Matrix.det_zero ⟨0⟩)]
  unfold solve
  rw [if_neg (by norm_num)]
  show solve_loop fixedModel.dh_rows fixedModel.offsets fixedModel.n_joints
    ![2, 0, 0] (1 / 1000) 0 (1 / 2) 2 (1 + 1) fixedModel.thetas [] 0 = _
  rw [solve_loop_succ]
  simp only [hee]
  rw [if_neg hnlt]
  simp only [hJ]
  rw [hdx, err_two]
  rfl

/-- C1 witness: the recurrences instantiated on a concrete one-joint chain. -/
theorem forward_kinematics_recurrences_witness :
    ∃ dhl actl,
      forward_kinematics [varRow] [0] (some [identOffset]) = some (dhl, actl) ∧
      dhl.length = [varRow].length ∧ actl.length = [varRow].length ∧
      dhl.getD 0 1 = jointA [varRow] [0] 0 ∧
      (∀ i, i + 1 < [varRow].length →
        dhl.getD (i + 1) 1 = dhl.getD i 1 * jointA [varRow] [0] (i + 1)) ∧
      (∀ i, i < [varRow].length →
        actl.getD i 1 = dhl.getD i 1 * jointO [identOffset] i) ∧
      (∀ off : OffsetRow, off.is_identity = true → offset_row_to_matrix off = 1) ∧
      forward_kinematics [varRow] [0] none =
        forward_kinematics [varRow] [0]
          (some (List.replicate [varRow].length identOffset)) :=
  forward_kinematics_recurrences [varRow] [0] [identOffset] rfl rfl (by simp)
